import Mathlib

/-!
Shallow embedding of the Work-Schedule & Order-Assignment Engine of the
repository (src/lib/order_assigner.py, src/routers/schedule.py,
src/lib/db_conn.py, src/redis_listener.py).

Dates are modelled as natural numbers counting days from a fixed Monday
epoch, so a date `d` is a weekday (Python `date.weekday() < 5`) exactly
when `d % 7 < 5`.  `available_slots` is an SQL integer, modelled as `Int`
(the unconditional `available_slots - 1` update can in principle go
negative, so `Nat` truncation would be unfaithful).

`DatabaseManager.execute_query` (src/lib/db_conn.py) commits each
statement on its own and swallows every error (logs, rolls back the
single statement, returns normally).  Write statements issued through it
are therefore modelled with an explicit failure flag: a failed write
leaves the state unchanged (that statement's rollback) while control
continues past it.
-/

/-- One row of the `schedule` table: composite key (user_id, work_date),
payload `available_slots`. -/
structure Row where
  user_id : String
  work_date : Nat
  available_slots : Int
deriving DecidableEq

/-- One row of the `orders` table (the columns touched by the engine). -/
structure OrderRow where
  order_id : String
  order_status : String
  assigned_to : Option String
  appointment_date : Option Nat
deriving DecidableEq

/-- One row of the `employees` table (the columns read by the engine). -/
structure Employee where
  user_id : String
  worker_role : String
  city : String
deriving DecidableEq

/-- The database state visible to the engine. -/
structure DBState where
  employees : List Employee
  schedule : List Row
  orders : List OrderRow
deriving DecidableEq

/-- Python `candidate.weekday() < 5` under the Monday-epoch encoding. -/
def isWeekday (d : Nat) : Bool := d % 7 < 5

/-- Step 1 of `ensure_worker_has_schedule`: `SELECT COUNT(*) FROM schedule
WHERE user_id = %s AND work_date >= %s AND available_slots = %s`. -/
def currentFullDays (schedule : List Row) (uid : String) (today : Nat)
    (slots_per_day : Nat) : Nat :=
  (schedule.filter (fun r =>
    r.user_id == uid && decide (today ≤ r.work_date)
      && r.available_slots == (slots_per_day : Int))).length

/-- Step 3 of `ensure_worker_has_schedule`: `SELECT work_date FROM schedule
WHERE user_id = %s AND work_date >= %s` (all existing dates from today). -/
def existingDates (schedule : List Row) (uid : String) (today : Nat) : List Nat :=
  (schedule.filter (fun r =>
    r.user_id == uid && decide (today ≤ r.work_date))).map (fun r => r.work_date)

/-- Step 4 of `ensure_worker_has_schedule`: the `while len(inserts) < missing`
loop generating candidate days `today + i`, keeping weekdays not already
present.  The loop is unbounded in Python; `fuel` bounds it here, and the
caller passes enough fuel for the loop to finish (any 7 consecutive days
contain 5 weekdays). -/
def collectInserts (today : Nat) (existing : List Nat) :
    Nat → Nat → Nat → List Nat
  | 0, _, _ => []
  | fuel + 1, i, missing =>
    if missing = 0 then []
    else
      let candidate := today + i
      if isWeekday candidate && !(existing.contains candidate) then
        candidate :: collectInserts today existing fuel (i + 1) (missing - 1)
      else
        collectInserts today existing fuel (i + 1) missing

/-- `ensure_worker_has_schedule(db, user_id, days_required, slots_per_day)`
(src/lib/order_assigner.py lines 7-51): tops the worker's forward calendar
up to `days_required` full-capacity days, inserting new weekday rows at
full capacity and skipping dates that already have a row. -/
def ensure_worker_has_schedule (st : DBState) (today : Nat) (user_id : String)
    (days_required slots_per_day : Nat) : DBState :=
  let current_full := currentFullDays st.schedule user_id today slots_per_day
  let missing := days_required - current_full
  if missing = 0 then st
  else
    let existing := existingDates st.schedule user_id today
    let inserts :=
      collectInserts today existing (7 * (missing + existing.length) + 7) 0 missing
    { st with schedule :=
        st.schedule ++ inserts.map (fun d => ⟨user_id, d, (slots_per_day : Int)⟩) }

/-- `SELECT work_date, available_slots FROM schedule WHERE user_id = %s AND
work_date >= %s AND available_slots > 0 ORDER BY work_date ASC LIMIT 1`:
the earliest available date of one worker at or after `floor` (only the
date is used by the caller). -/
def nearestSlot (schedule : List Row) (uid : String) (floor : Nat) : Option Nat :=
  match schedule with
  | [] => none
  | r :: rest =>
    let best := nearestSlot rest uid floor
    if r.user_id == uid && decide (floor ≤ r.work_date)
        && decide ((0 : Int) < r.available_slots) then
      match best with
      | none => some r.work_date
      | some d => if r.work_date ≤ d then some r.work_date else some d
    else best

/-- The `owner_slots` / `worker_slots` dictionary followed by
`min(dict.items(), key=lambda x: x[1][0])`: the member of `ids` (in list
order) whose nearest slot has the smallest date; Python's `min` keeps the
first item attaining the minimum. -/
def bestOf (schedule : List Row) (ids : List String) (floor : Nat) :
    Option (String × Nat) :=
  match ids with
  | [] => none
  | uid :: rest =>
    match nearestSlot schedule uid floor, bestOf schedule rest floor with
    | none, b => b
    | some d, none => some (uid, d)
    | some d, some p => if d ≤ p.2 then some (uid, d) else some p

/-- The relaxed-floor fallback loops of the non-urgent branch
(`for owner_id in owners: ... break` / `for worker_id in workers: ...
break`): the FIRST id in list order that has any available slot, at that
id's earliest available date. -/
def firstAny (schedule : List Row) (ids : List String) (floor : Nat) :
    Option (String × Nat) :=
  match ids with
  | [] => none
  | uid :: rest =>
    match nearestSlot schedule uid floor with
    | some d => some (uid, d)
    | none => firstAny schedule rest floor

/-- The candidate-selection part of `assign_order_to_worker` (lines 82-219):
urgent orders search owners then workers from today; non-urgent orders
search owners then workers from `today + low_priority_delay`, and if both
tiers are empty there, fall back to the first owner (then the first
worker) with any slot from today. -/
def selectAssignment (schedule : List Row) (owners workers : List String)
    (is_urgent : Bool) (today low_priority_delay : Nat) :
    Option (String × Nat) :=
  if is_urgent then
    match bestOf schedule owners today with
    | some p => some p
    | none => bestOf schedule workers today
  else
    let cutoff := today + low_priority_delay
    match bestOf schedule owners cutoff with
    | some p => some p
    | none =>
      match bestOf schedule workers cutoff with
      | some p => some p
      | none =>
        match firstAny schedule owners today with
        | some p => some p
        | none => firstAny schedule workers today

/-- `UPDATE schedule SET available_slots = available_slots - 1 WHERE
user_id = %s AND work_date = %s` — note: unconditional decrement, no
`available_slots > 0` guard. -/
def decrementSlot (schedule : List Row) (uid : String) (d : Nat) : List Row :=
  schedule.map (fun r =>
    if r.user_id == uid && r.work_date == d then
      { r with available_slots := r.available_slots - 1 }
    else r)

/-- `UPDATE orders SET assigned_to = %s, order_status = 'In progress',
appointment_date = %s WHERE order_id = %s`. -/
def updateOrderAssignment (orders : List OrderRow) (oid uid : String) (d : Nat) :
    List OrderRow :=
  orders.map (fun o =>
    if o.order_id == oid then
      { o with assigned_to := some uid,
               order_status := "In progress",
               appointment_date := some d }
    else o)

/-- `UPDATE schedule SET available_slots = 0 WHERE user_id = %s AND
work_date = %s` issued by `review_leave_request` on approval
(src/routers/schedule.py lines 205-212). -/
def zeroSlot (schedule : List Row) (uid : String) (d : Nat) : List Row :=
  schedule.map (fun r =>
    if r.user_id == uid && r.work_date == d then
      { r with available_slots := 0 }
    else r)

/-- `SELECT user_id, worker_role FROM employees WHERE city = %s`. -/
def cityEmployees (st : DBState) (order_city : String) : List (String × String) :=
  (st.employees.filter (fun e => e.city == order_city)).map
    (fun e => (e.user_id, e.worker_role))

/-- Step 2 of `assign_order_to_worker`: `ensure_worker_has_schedule` for
every employee of the city, with `days_required=30, slots_per_day=6`. -/
def ensureAll (st : DBState) (today : Nat) (emps : List (String × String)) :
    DBState :=
  emps.foldl (fun acc e => ensure_worker_has_schedule acc today e.1 30 6) st

/-- `owners = [uid for uid, role in employees if role == "OWNER"]`. -/
def ownersOf (emps : List (String × String)) : List String :=
  (emps.filter (fun e => e.2 == "OWNER")).map (fun e => e.1)

/-- `workers = [uid for uid, role in employees if role == "WORKER"]`. -/
def workersOf (emps : List (String × String)) : List String :=
  (emps.filter (fun e => e.2 == "WORKER")).map (fun e => e.1)

/-- `is_urgent = urgency.lower().startswith("pilne")`, on the character
list of the string (ASCII lowercasing as Python does for these tokens). -/
def isUrgentStr (urgency : String) : Bool :=
  "pilne".data.isPrefixOf (urgency.data.map Char.toLower)

/-- `assign_order_to_worker(order_id, order_city, urgency, low_priority_delay)`
(src/lib/order_assigner.py lines 54-243, duplicated in src/api.py).
`failDecrement` / `failOrderUpdate` model a database error inside the
corresponding `execute_query` call: the statement's transaction rolls
back (state unchanged) and the method returns normally, so execution
continues.  Returns the new state and the returned `work_date`. -/
def assign_order_to_worker (st : DBState) (today : Nat)
    (order_id order_city urgency : String) (low_priority_delay : Nat)
    (failDecrement failOrderUpdate : Bool) : DBState × Option Nat :=
  let emps := cityEmployees st order_city
  if emps.isEmpty then (st, none)
  else
    let st1 := ensureAll st today emps
    match selectAssignment st1.schedule (ownersOf emps) (workersOf emps)
        (isUrgentStr urgency) today low_priority_delay with
    | none => (st1, none)
    | some (assigned_id, work_date) =>
      let st2 :=
        if failDecrement then st1
        else { st1 with schedule := decrementSlot st1.schedule assigned_id work_date }
      let st3 :=
        if failOrderUpdate then st2
        else { st2 with orders := updateOrderAssignment st2.orders order_id assigned_id work_date }
      (st3, some work_date)

/-- The Leave Effect Applier: the schedule update performed when a leave
request is approved (src/routers/schedule.py lines 205-212). -/
def applyApprovedLeave (st : DBState) (uid : String) (d : Nat) : DBState :=
  { st with schedule := zeroSlot st.schedule uid d }

/-- The engine's operations, for reachability statements: horizon
maintenance (always invoked with `days_required=30, slots_per_day=6`),
assignment (with failure flags for its two writes), leave approval. -/
inductive EngineOp where
  | ensureOp (today : Nat) (uid : String)
  | assignOp (today : Nat) (order_id order_city urgency : String)
      (delay : Nat) (failDec failUpd : Bool)
  | leaveOp (uid : String) (d : Nat)

/-- Interpretation of one engine operation on the database state. -/
def applyOp (st : DBState) : EngineOp → DBState
  | .ensureOp t uid => ensure_worker_has_schedule st t uid 30 6
  | .assignOp t oid city urg delay f1 f2 =>
      (assign_order_to_worker st t oid city urg delay f1 f2).1
  | .leaveOp uid d => applyApprovedLeave st uid d

/-- Sequential execution of a list of engine operations. -/
def runOps (st : DBState) (ops : List EngineOp) : DBState := ops.foldl applyOp st

/-- In `listen_for_events` (src/redis_listener.py lines 20-35) the handler
of both subscribed channels invokes `assign_order_to_worker` with no
arguments at all. -/
def listenerCallArgCount : Nat := 0

/-- `assign_order_to_worker` (src/api.py lines 1183-1188) has three
parameters without a default value: `order_id`, `order_city`, `urgency`. -/
def assignRequiredArgCount : Nat := 3

/-- A Python positional call binds only when at least every parameter
without a default value receives an argument. -/
def pythonCallBinds (supplied required : Nat) : Bool := decide (required ≤ supplied)

/-! ### Properties of the selection queries -/

lemma nearestSlot_mem {schedule : List Row} {uid : String} {floor d : Nat}
    (h : nearestSlot schedule uid floor = some d) :
    ∃ r ∈ schedule, r.user_id = uid ∧ r.work_date = d ∧ floor ≤ d ∧
      0 < r.available_slots := by
  induction schedule with
  | nil => simp [nearestSlot] at h
  | cons r rest ih =>
    simp only [nearestSlot] at h
    by_cases hc : (r.user_id == uid && decide (floor ≤ r.work_date)
        && decide ((0 : Int) < r.available_slots)) = true
    · rw [if_pos hc] at h
      simp only [Bool.and_eq_true, beq_iff_eq, decide_eq_true_eq] at hc
      obtain ⟨⟨h1, h2⟩, h3⟩ := hc
      cases hbest : nearestSlot rest uid floor with
      | none =>
        rw [hbest] at h
        injection h with h
        exact ⟨r, List.mem_cons_self _ _, h1, h, by omega, h3⟩
      | some e =>
        rw [hbest] at h
        dsimp only at h
        by_cases hle : r.work_date ≤ e
        · rw [if_pos hle] at h
          injection h with h
          exact ⟨r, List.mem_cons_self _ _, h1, h, by omega, h3⟩
        · rw [if_neg hle] at h
          injection h with h
          obtain ⟨r', hr', p1, p2, p3, p4⟩ := ih (h ▸ hbest)
          exact ⟨r', List.mem_cons_of_mem _ hr', p1, p2, p3, p4⟩
    · rw [if_neg hc] at h
      obtain ⟨r', hr', p1, p2, p3, p4⟩ := ih h
      exact ⟨r', List.mem_cons_of_mem _ hr', p1, p2, p3, p4⟩

lemma nearestSlot_none {schedule : List Row} {uid : String} {floor : Nat}
    (h : nearestSlot schedule uid floor = none) :
    ∀ r ∈ schedule, r.user_id = uid → floor ≤ r.work_date →
      ¬ 0 < r.available_slots := by
  induction schedule with
  | nil => simp
  | cons r rest ih =>
    intro s hs hsu hsf hsa
    simp only [nearestSlot] at h
    by_cases hc : (r.user_id == uid && decide (floor ≤ r.work_date)
        && decide ((0 : Int) < r.available_slots)) = true
    · rw [if_pos hc] at h
      cases hbest : nearestSlot rest uid floor with
      | none => rw [hbest] at h; exact Option.noConfusion h
      | some e =>
        rw [hbest] at h
        dsimp only at h
        by_cases hle : r.work_date ≤ e
        · rw [if_pos hle] at h; exact Option.noConfusion h
        · rw [if_neg hle] at h; exact Option.noConfusion h
    · rw [if_neg hc] at h
      rcases List.mem_cons.mp hs with hsr | hsr
      · subst hsr
        simp only [Bool.and_eq_true, beq_iff_eq, decide_eq_true_eq, not_and] at hc
        exact hc ⟨hsu, hsf⟩ hsa
      · exact ih h s hsr hsu hsf hsa

lemma nearestSlot_isSome {schedule : List Row} {uid : String} {floor : Nat}
    {r : Row} (hr : r ∈ schedule) (hu : r.user_id = uid)
    (hf : floor ≤ r.work_date) (ha : 0 < r.available_slots) :
    (nearestSlot schedule uid floor).isSome := by
  cases hn : nearestSlot schedule uid floor with
  | none => exact absurd ha (nearestSlot_none hn r hr hu hf)
  | some d => rfl

lemma nearestSlot_le {schedule : List Row} {uid : String} {floor d : Nat}
    (h : nearestSlot schedule uid floor = some d) :
    ∀ r ∈ schedule, r.user_id = uid → floor ≤ r.work_date →
      0 < r.available_slots → d ≤ r.work_date := by
  induction schedule generalizing d with
  | nil => simp
  | cons r rest ih =>
    intro s hs hsu hsf hsa
    simp only [nearestSlot] at h
    by_cases hc : (r.user_id == uid && decide (floor ≤ r.work_date)
        && decide ((0 : Int) < r.available_slots)) = true
    · rw [if_pos hc] at h
      cases hbest : nearestSlot rest uid floor with
      | none =>
        rw [hbest] at h
        injection h with h
        rcases List.mem_cons.mp hs with hsr | hsr
        · subst hsr; omega
        · exact absurd hsa (nearestSlot_none hbest s hsr hsu hsf)
      | some e =>
        rw [hbest] at h
        dsimp only at h
        have hes : s ∈ rest → e ≤ s.work_date := fun hsr =>
          ih hbest s hsr hsu hsf hsa
        by_cases hle : r.work_date ≤ e
        · rw [if_pos hle] at h
          injection h with h
          rcases List.mem_cons.mp hs with hsr | hsr
          · subst hsr; omega
          · have := hes hsr; omega
        · rw [if_neg hle] at h
          injection h with h
          rcases List.mem_cons.mp hs with hsr | hsr
          · subst hsr; omega
          · have := hes hsr; omega
    · rw [if_neg hc] at h
      rcases List.mem_cons.mp hs with hsr | hsr
      · subst hsr
        simp only [Bool.and_eq_true, beq_iff_eq, decide_eq_true_eq, not_and] at hc
        exact absurd hsa (hc ⟨hsu, hsf⟩)
      · exact ih h s hsr hsu hsf hsa

lemma bestOf_none {schedule : List Row} {ids : List String} {floor : Nat}
    (h : bestOf schedule ids floor = none) :
    ∀ v ∈ ids, nearestSlot schedule v floor = none := by
  induction ids with
  | nil => simp
  | cons i rest ih =>
    intro v hv
    simp only [bestOf] at h
    cases hn : nearestSlot schedule i floor with
    | none =>
      rw [hn] at h
      dsimp only at h
      rcases List.mem_cons.mp hv with hvr | hvr
      · subst hvr; exact hn
      · exact ih h v hvr
    | some e =>
      rw [hn] at h
      cases hb : bestOf schedule rest floor with
      | none => rw [hb] at h; dsimp only at h; exact Option.noConfusion h
      | some p =>
        rw [hb] at h
        dsimp only at h
        by_cases hle : e ≤ p.2
        · rw [if_pos hle] at h; exact Option.noConfusion h
        · rw [if_neg hle] at h; exact Option.noConfusion h

lemma bestOf_mem {schedule : List Row} {ids : List String} {floor : Nat}
    {u : String} {d : Nat} (h : bestOf schedule ids floor = some (u, d)) :
    u ∈ ids ∧ nearestSlot schedule u floor = some d := by
  induction ids generalizing u d with
  | nil => simp [bestOf] at h
  | cons i rest ih =>
    simp only [bestOf] at h
    cases hn : nearestSlot schedule i floor with
    | none =>
      rw [hn] at h
      dsimp only at h
      obtain ⟨h1, h2⟩ := ih h
      exact ⟨List.mem_cons_of_mem _ h1, h2⟩
    | some e =>
      rw [hn] at h
      cases hb : bestOf schedule rest floor with
      | none =>
        rw [hb] at h
        dsimp only at h
        injection h with h
        rw [Prod.mk.injEq] at h
        obtain ⟨rfl, rfl⟩ := h
        exact ⟨List.mem_cons_self _ _, hn⟩
      | some p =>
        obtain ⟨pu, pd⟩ := p
        rw [hb] at h
        dsimp only at h
        by_cases hle : e ≤ pd
        · rw [if_pos hle] at h
          injection h with h
          rw [Prod.mk.injEq] at h
          obtain ⟨rfl, rfl⟩ := h
          exact ⟨List.mem_cons_self _ _, hn⟩
        · rw [if_neg hle] at h
          injection h with h
          rw [h] at hb
          obtain ⟨h1, h2⟩ := ih hb
          exact ⟨List.mem_cons_of_mem _ h1, h2⟩

lemma bestOf_le {schedule : List Row} {ids : List String} {floor : Nat}
    {u : String} {d : Nat} (h : bestOf schedule ids floor = some (u, d)) :
    ∀ v ∈ ids, ∀ e, nearestSlot schedule v floor = some e → d ≤ e := by
  induction ids generalizing u d with
  | nil => simp [bestOf] at h
  | cons i rest ih =>
    intro v hv e he
    simp only [bestOf] at h
    cases hn : nearestSlot schedule i floor with
    | none =>
      rw [hn] at h
      dsimp only at h
      rcases List.mem_cons.mp hv with hvr | hvr
      · subst hvr; rw [hn] at he; exact Option.noConfusion he
      · exact ih h v hvr e he
    | some e0 =>
      rw [hn] at h
      cases hb : bestOf schedule rest floor with
      | none =>
        rw [hb] at h
        dsimp only at h
        injection h with h
        rw [Prod.mk.injEq] at h
        obtain ⟨rfl, rfl⟩ := h
        rcases List.mem_cons.mp hv with hvr | hvr
        · subst hvr; rw [hn] at he; injection he with he; omega
        · exact absurd he (by rw [bestOf_none hb v hvr]; exact Option.noConfusion)
      | some p =>
        obtain ⟨pu, pd⟩ := p
        rw [hb] at h
        dsimp only at h
        by_cases hle : e0 ≤ pd
        · rw [if_pos hle] at h
          injection h with h
          rw [Prod.mk.injEq] at h
          obtain ⟨rfl, rfl⟩ := h
          rcases List.mem_cons.mp hv with hvr | hvr
          · subst hvr; rw [hn] at he; injection he with he; omega
          · have := ih hb v hvr e he; omega
        · rw [if_neg hle] at h
          injection h with h
          rw [h] at hb
          rcases List.mem_cons.mp hv with hvr | hvr
          · subst hvr
            rw [hn] at he
            injection he with he
            have h2 : d = pd := by
              have := congrArg Prod.snd h; simpa using this.symm
            omega
          · exact ih hb v hvr e he

lemma bestOf_isSome {schedule : List Row} {ids : List String} {floor : Nat}
    {v : String} {e : Nat} (hv : v ∈ ids)
    (he : nearestSlot schedule v floor = some e) :
    (bestOf schedule ids floor).isSome := by
  cases hb : bestOf schedule ids floor with
  | none => rw [bestOf_none hb v hv] at he; exact Option.noConfusion he
  | some p => rfl

lemma firstAny_none_iff {schedule : List Row} {ids : List String} {floor : Nat} :
    firstAny schedule ids floor = none ↔
      ∀ v ∈ ids, nearestSlot schedule v floor = none := by
  induction ids with
  | nil => simp [firstAny]
  | cons i rest ih =>
    simp only [firstAny]
    cases hn : nearestSlot schedule i floor with
    | none =>
      simp only [List.mem_cons]
      constructor
      · intro h v hv
        rcases hv with hvr | hvr
        · subst hvr; exact hn
        · exact ih.mp h v hvr
      · intro h
        exact ih.mpr (fun v hv => h v (Or.inr hv))
    | some e =>
      constructor
      · intro h; exact Option.noConfusion h
      · intro h
        rw [h i (List.mem_cons_self _ _)] at hn
        exact Option.noConfusion hn

lemma firstAny_mem {schedule : List Row} {ids : List String} {floor : Nat}
    {u : String} {d : Nat} (h : firstAny schedule ids floor = some (u, d)) :
    ∃ pre post, ids = pre ++ u :: post ∧
      (∀ v ∈ pre, nearestSlot schedule v floor = none) ∧
      nearestSlot schedule u floor = some d := by
  induction ids with
  | nil => simp [firstAny] at h
  | cons i rest ih =>
    simp only [firstAny] at h
    cases hn : nearestSlot schedule i floor with
    | none =>
      rw [hn] at h
      obtain ⟨pre, post, h1, h2, h3⟩ := ih h
      refine ⟨i :: pre, post, by rw [h1]; rfl, ?_, h3⟩
      intro v hv
      rcases List.mem_cons.mp hv with hvr | hvr
      · subst hvr; exact hn
      · exact h2 v hvr
    | some e =>
      rw [hn] at h
      injection h with h
      rw [Prod.mk.injEq] at h
      obtain ⟨rfl, rfl⟩ := h
      exact ⟨[], rest, rfl, by simp, hn⟩

lemma selectAssignment_sound {schedule : List Row} {owners workers : List String}
    {is_urgent : Bool} {today delay : Nat} {u : String} {d : Nat}
    (h : selectAssignment schedule owners workers is_urgent today delay
      = some (u, d)) :
    ∃ r ∈ schedule, r.user_id = u ∧ r.work_date = d ∧ 0 < r.available_slots ∧
      today ≤ d := by
  have fromNearest : ∀ floor : Nat, today ≤ floor →
      nearestSlot schedule u floor = some d →
      ∃ r ∈ schedule, r.user_id = u ∧ r.work_date = d ∧ 0 < r.available_slots ∧
        today ≤ d := by
    intro floor hf hn
    obtain ⟨r, hr, p1, p2, p3, p4⟩ := nearestSlot_mem hn
    exact ⟨r, hr, p1, p2, p4, by omega⟩
  unfold selectAssignment at h
  cases is_urgent with
  | true =>
    dsimp only at h
    cases hb : bestOf schedule owners today with
    | some p =>
      rw [hb] at h
      dsimp only at h
      injection h with h
      rw [h] at hb
      exact fromNearest today (le_refl _) (bestOf_mem hb).2
    | none =>
      rw [hb] at h
      dsimp only at h
      exact fromNearest today (le_refl _) (bestOf_mem h).2
  | false =>
    dsimp only at h
    cases hb1 : bestOf schedule owners (today + delay) with
    | some p =>
      rw [hb1] at h
      dsimp only at h
      injection h with h
      rw [h] at hb1
      exact fromNearest (today + delay) (by omega) (bestOf_mem hb1).2
    | none =>
      rw [hb1] at h
      dsimp only at h
      cases hb2 : bestOf schedule workers (today + delay) with
      | some p =>
        rw [hb2] at h
        dsimp only at h
        injection h with h
        rw [h] at hb2
        exact fromNearest (today + delay) (by omega) (bestOf_mem hb2).2
      | none =>
        rw [hb2] at h
        dsimp only at h
        cases hf1 : firstAny schedule owners today with
        | some p =>
          rw [hf1] at h
          dsimp only at h
          injection h with h
          rw [h] at hf1
          obtain ⟨pre, post, q1, q2, q3⟩ := firstAny_mem hf1
          exact fromNearest today (le_refl _) q3
        | none =>
          rw [hf1] at h
          dsimp only at h
          obtain ⟨pre, post, q1, q2, q3⟩ := firstAny_mem h
          exact fromNearest today (le_refl _) q3

/-! ### Properties of the horizon loop (`collectInserts`) -/

lemma collectInserts_mem {today : Nat} {existing : List Nat} :
    ∀ {fuel i missing d : Nat}, d ∈ collectInserts today existing fuel i missing →
      today + i ≤ d ∧ isWeekday d = true ∧ d ∉ existing := by
  intro fuel
  induction fuel with
  | zero => intro i missing d h; simp [collectInserts] at h
  | succ fuel ih =>
    intro i missing d h
    simp only [collectInserts] at h
    by_cases hm : missing = 0
    · rw [if_pos hm] at h; simp at h
    · rw [if_neg hm] at h
      by_cases hc : (isWeekday (today + i) && !(existing.contains (today + i))) = true
      · rw [if_pos hc] at h
        simp only [Bool.and_eq_true, Bool.not_eq_true'] at hc
        rcases List.mem_cons.mp h with hd | hd
        · subst hd
          exact ⟨le_refl _, hc.1, by simpa using hc.2⟩
        · obtain ⟨p1, p2, p3⟩ := ih hd
          exact ⟨by omega, p2, p3⟩
      · rw [if_neg hc] at h
        obtain ⟨p1, p2, p3⟩ := ih h
        exact ⟨by omega, p2, p3⟩

lemma collectInserts_pairwise {today : Nat} {existing : List Nat} :
    ∀ {fuel i missing : Nat},
      (collectInserts today existing fuel i missing).Pairwise (· < ·) := by
  intro fuel
  induction fuel with
  | zero => intro i missing; simp [collectInserts]
  | succ fuel ih =>
    intro i missing
    simp only [collectInserts]
    by_cases hm : missing = 0
    · rw [if_pos hm]; exact List.Pairwise.nil
    · rw [if_neg hm]
      by_cases hc : (isWeekday (today + i) && !(existing.contains (today + i))) = true
      · rw [if_pos hc]
        refine List.Pairwise.cons ?_ ih
        intro d hd
        have := (collectInserts_mem hd).1
        omega
      · rw [if_neg hc]; exact ih

lemma collectInserts_empty_eq {today : Nat} :
    ∀ {fuel i missing : Nat},
      collectInserts today [] fuel i missing
        = (((List.range fuel).map (fun j => today + i + j)).filter
            (fun d => isWeekday d)).take missing := by
  intro fuel
  induction fuel with
  | zero => intro i missing; simp [collectInserts]
  | succ fuel ih =>
    intro i missing
    by_cases hm : missing = 0
    · subst hm; simp [collectInserts]
    · obtain ⟨m, rfl⟩ := Nat.exists_eq_succ_of_ne_zero hm
      simp only [collectInserts, Nat.succ_ne_zero, if_false]
      rw [List.range_succ_eq_map]
      simp only [List.map_cons, List.map_map, List.filter_cons]
      have hcomp : ((fun j => today + i + j) ∘ Nat.succ) = fun j => today + (i + 1) + j := by
        funext j
        simp only [Function.comp_apply, Nat.succ_eq_add_one]
        omega
      rw [hcomp]
      have hz : today + i + 0 = today + i := by omega
      rw [hz]
      have hcontains : (([] : List Nat).contains (today + i)) = false := rfl
      rw [hcontains]
      simp only [Bool.not_false, Bool.and_true]
      by_cases hw : isWeekday (today + i) = true
      · rw [if_pos hw, if_pos hw, List.take_succ_cons]
        simp only [Nat.succ_sub_one]
        rw [ih]
      · rw [if_neg hw, if_neg hw]
        rw [ih]

lemma countP_weekday_range7 (t : Nat) :
    (List.range 7).countP (fun j => isWeekday (t + j)) = 5 := by
  have h7 : List.range 7 = [0, 1, 2, 3, 4, 5, 6] := by decide
  rw [h7]
  simp only [List.countP_cons, List.countP_nil, isWeekday, decide_eq_true_eq]
  split_ifs <;> omega

lemma countP_weekday_range_mul (t k : Nat) :
    (List.range (7 * k)).countP (fun j => isWeekday (t + j)) = 5 * k := by
  induction k with
  | zero => simp
  | succ k ih =>
    have h7 : 7 * (k + 1) = 7 * k + 7 := by ring
    rw [h7, List.range_add, List.countP_append, ih, List.countP_map]
    have hcongr : (List.range 7).countP ((fun j => isWeekday (t + j)) ∘ fun x => 7 * k + x)
        = (List.range 7).countP (fun j => isWeekday (t + 7 * k + j)) := by
      apply List.countP_congr
      intro j hj
      simp only [Function.comp_apply]
      have : t + (7 * k + j) = t + 7 * k + j := by omega
      rw [this]
    rw [hcongr, countP_weekday_range7]
    ring

/-! ### Structure of `ensure_worker_has_schedule` and `ensureAll` -/

lemma mem_existingDates {schedule : List Row} {uid : String} {today : Nat}
    {r : Row} (hr : r ∈ schedule) (hu : r.user_id = uid)
    (ht : today ≤ r.work_date) :
    r.work_date ∈ existingDates schedule uid today := by
  simp only [existingDates, List.mem_map, List.mem_filter]
  refine ⟨r, ⟨hr, ?_⟩, rfl⟩
  simp [hu, ht]

lemma ensure_employees (st : DBState) (today : Nat) (uid : String) (dr sp : Nat) :
    (ensure_worker_has_schedule st today uid dr sp).employees = st.employees := by
  unfold ensure_worker_has_schedule
  dsimp only
  split <;> rfl

lemma ensure_orders (st : DBState) (today : Nat) (uid : String) (dr sp : Nat) :
    (ensure_worker_has_schedule st today uid dr sp).orders = st.orders := by
  unfold ensure_worker_has_schedule
  dsimp only
  split <;> rfl

lemma ensure_schedule_shape (st : DBState) (today : Nat) (uid : String)
    (dr sp : Nat) :
    ∃ l : List Nat,
      (ensure_worker_has_schedule st today uid dr sp).schedule
        = st.schedule ++ l.map (fun d => ⟨uid, d, (sp : Int)⟩) ∧
      l.Pairwise (· < ·) ∧
      ∀ d ∈ l, today ≤ d ∧ isWeekday d = true ∧
        d ∉ existingDates st.schedule uid today := by
  unfold ensure_worker_has_schedule
  dsimp only
  split
  · exact ⟨[], by simp, List.Pairwise.nil, by simp⟩
  · refine ⟨collectInserts today (existingDates st.schedule uid today)
      (7 * ((dr - currentFullDays st.schedule uid today sp)
        + (existingDates st.schedule uid today).length) + 7) 0
      (dr - currentFullDays st.schedule uid today sp), rfl,
      collectInserts_pairwise, ?_⟩
    intro d hd
    obtain ⟨p1, p2, p3⟩ := collectInserts_mem hd
    exact ⟨by omega, p2, p3⟩

lemma ensureAll_cons (st : DBState) (today : Nat) (e : String × String)
    (rest : List (String × String)) :
    ensureAll st today (e :: rest)
      = ensureAll (ensure_worker_has_schedule st today e.1 30 6) today rest := by
  simp [ensureAll]

lemma ensureAll_employees :
    ∀ (emps : List (String × String)) (st : DBState) (today : Nat),
      (ensureAll st today emps).employees = st.employees := by
  intro emps
  induction emps with
  | nil => intro st today; rfl
  | cons e rest ih =>
    intro st today
    rw [ensureAll_cons, ih, ensure_employees]

lemma ensureAll_orders :
    ∀ (emps : List (String × String)) (st : DBState) (today : Nat),
      (ensureAll st today emps).orders = st.orders := by
  intro emps
  induction emps with
  | nil => intro st today; rfl
  | cons e rest ih =>
    intro st today
    rw [ensureAll_cons, ih, ensure_orders]

lemma ensureAll_schedule_shape :
    ∀ (emps : List (String × String)) (st : DBState) (today : Nat),
      ∃ l : List Row, (ensureAll st today emps).schedule = st.schedule ++ l ∧
        ∀ r ∈ l, today ≤ r.work_date ∧ r.available_slots = 6 := by
  intro emps
  induction emps with
  | nil => intro st today; exact ⟨[], by simp [ensureAll], by simp⟩
  | cons e rest ih =>
    intro st today
    rw [ensureAll_cons]
    obtain ⟨l1, h1, hpw, hprops⟩ := ensure_schedule_shape st today e.1 30 6
    obtain ⟨l2, h2, hprops2⟩ :=
      ih (ensure_worker_has_schedule st today e.1 30 6) today
    refine ⟨l1.map (fun d => ⟨e.1, d, ((6 : Nat) : Int)⟩) ++ l2, ?_, ?_⟩
    · rw [h2, h1, List.append_assoc]
    · intro r hr
      rcases List.mem_append.mp hr with hr1 | hr1
      · obtain ⟨d0, hd0, rfl⟩ := List.mem_map.mp hr1
        obtain ⟨q1, q2, q3⟩ := hprops d0 hd0
        exact ⟨q1, by norm_num⟩
      · exact hprops2 r hr1

lemma ensureAll_zero_preserved (w : String) (dd : Nat) :
    ∀ (emps : List (String × String)) (st : DBState) (today : Nat),
      (∀ r ∈ st.schedule, r.user_id = w → r.work_date = dd →
        r.available_slots = 0) →
      (today ≤ dd → ∃ r ∈ st.schedule, r.user_id = w ∧ r.work_date = dd) →
      ∀ r ∈ (ensureAll st today emps).schedule, r.user_id = w →
        r.work_date = dd → r.available_slots = 0 := by
  intro emps
  induction emps with
  | nil => intro st today hz hex r hr; exact hz r hr
  | cons e rest ih =>
    intro st today hz hex
    rw [ensureAll_cons]
    obtain ⟨l, hsch, hpw, hprops⟩ := ensure_schedule_shape st today e.1 30 6
    have hz' : ∀ r ∈ (ensure_worker_has_schedule st today e.1 30 6).schedule,
        r.user_id = w → r.work_date = dd → r.available_slots = 0 := by
      intro s hs hsu hsd
      rw [hsch] at hs
      rcases List.mem_append.mp hs with h1 | h1
      · exact hz s h1 hsu hsd
      · obtain ⟨d0, hd0, rfl⟩ := List.mem_map.mp h1
        obtain ⟨q1, q2, q3⟩ := hprops d0 hd0
        have hsd' : d0 = dd := hsd
        have hsu' : e.1 = w := hsu
        exfalso
        obtain ⟨r0, hr0, hr0u, hr0d⟩ := hex (by omega)
        apply q3
        have h5 : r0.work_date ∈ existingDates st.schedule e.1 today :=
          mem_existingDates hr0 (by rw [hr0u, ← hsu']) (by omega)
        rw [hr0d] at h5
        rw [hsd']
        exact h5
    have hex' : today ≤ dd →
        ∃ r ∈ (ensure_worker_has_schedule st today e.1 30 6).schedule,
          r.user_id = w ∧ r.work_date = dd := by
      intro ht
      obtain ⟨r0, hr0, h1, h2⟩ := hex ht
      exact ⟨r0, by rw [hsch]; exact List.mem_append_left _ hr0, h1, h2⟩
    exact ih _ today hz' hex'

/-! ### The capacity-bound invariant -/

/-- Every schedule row within the capacity bound `[0, 6]`. -/
def slotsBounded (sch : List Row) : Prop :=
  ∀ r ∈ sch, 0 ≤ r.available_slots ∧ r.available_slots ≤ 6

/-- No two schedule rows share the composite key (user_id, work_date). -/
def keysDistinct (sch : List Row) : Prop :=
  sch.Pairwise (fun r s => r.user_id ≠ s.user_id ∨ r.work_date ≠ s.work_date)

/-- The inductive invariant: bounded capacities and key uniqueness. -/
def GoodSchedule (sch : List Row) : Prop := slotsBounded sch ∧ keysDistinct sch

lemma keysDistinct_symm :
    Symmetric (fun r s : Row => r.user_id ≠ s.user_id ∨ r.work_date ≠ s.work_date) := by
  intro a b h
  rcases h with h | h
  · exact Or.inl (Ne.symm h)
  · exact Or.inr (Ne.symm h)

lemma keysDistinct_unique {sch : List Row} (hk : keysDistinct sch)
    {a b : Row} (ha : a ∈ sch) (hb : b ∈ sch)
    (hu : a.user_id = b.user_id) (hd : a.work_date = b.work_date) : a = b := by
  by_contra hne
  rcases hk.forall keysDistinct_symm ha hb hne with h | h
  · exact h hu
  · exact h hd

lemma ensure_good {st : DBState} {today : Nat} {uid : String} {dr sp : Nat}
    (hsp : sp ≤ 6) (hg : GoodSchedule st.schedule) :
    GoodSchedule (ensure_worker_has_schedule st today uid dr sp).schedule := by
  obtain ⟨hb, hk⟩ := hg
  obtain ⟨l, hsch, hpw, hprops⟩ := ensure_schedule_shape st today uid dr sp
  rw [hsch]
  constructor
  · intro r hr
    rcases List.mem_append.mp hr with h1 | h1
    · exact hb r h1
    · obtain ⟨d0, hd0, rfl⟩ := List.mem_map.mp h1
      constructor
      · show (0 : Int) ≤ (sp : Int)
        exact Int.ofNat_nonneg sp
      · show (sp : Int) ≤ 6
        exact_mod_cast hsp
  · rw [keysDistinct] at hk ⊢
    rw [List.pairwise_append]
    refine ⟨hk, ?_, ?_⟩
    · rw [List.pairwise_map]
      refine hpw.imp ?_
      intro a b hab
      exact Or.inr (by simpa using Nat.ne_of_lt hab)
    · intro a ha b hbm
      obtain ⟨d0, hd0, rfl⟩ := List.mem_map.mp hbm
      obtain ⟨q1, q2, q3⟩ := hprops d0 hd0
      by_cases hau : a.user_id = uid
      · refine Or.inr ?_
        show a.work_date ≠ d0
        by_cases hat : today ≤ a.work_date
        · intro he
          exact q3 (he ▸ mem_existingDates ha hau hat)
        · omega
      · exact Or.inl (by simpa using hau)

lemma ensureAll_good :
    ∀ (emps : List (String × String)) (st : DBState) (today : Nat),
      GoodSchedule st.schedule → GoodSchedule (ensureAll st today emps).schedule := by
  intro emps
  induction emps with
  | nil => intro st today hg; exact hg
  | cons e rest ih =>
    intro st today hg
    rw [ensureAll_cons]
    exact ih _ today (ensure_good (by norm_num) hg)

lemma decrementSlot_good {sch : List Row} {uid : String} {d : Nat}
    (hg : GoodSchedule sch)
    (hpos : ∃ r ∈ sch, r.user_id = uid ∧ r.work_date = d ∧ 0 < r.available_slots) :
    GoodSchedule (decrementSlot sch uid d) := by
  obtain ⟨hb, hk⟩ := hg
  obtain ⟨r0, hr0, h0u, h0d, h0a⟩ := hpos
  constructor
  · intro r' hr'
    obtain ⟨r, hr, rfl⟩ := List.mem_map.mp hr'
    by_cases hc : (r.user_id == uid && r.work_date == d) = true
    · rw [if_pos hc]
      simp only [Bool.and_eq_true, beq_iff_eq] at hc
      have hreq : r = r0 :=
        keysDistinct_unique hk hr hr0 (by rw [hc.1, h0u]) (by rw [hc.2, h0d])
      have := hb r hr
      subst hreq
      constructor
      · simp only
        omega
      · simp only
        omega
    · rw [if_neg hc]
      exact hb r hr
  · rw [keysDistinct] at hk ⊢
    unfold decrementSlot
    rw [List.pairwise_map]
    refine hk.imp ?_
    intro a b hab
    have hkeys : ∀ r : Row,
        (if (r.user_id == uid && r.work_date == d) = true then
          { r with available_slots := r.available_slots - 1 } else r).user_id
            = r.user_id ∧
        (if (r.user_id == uid && r.work_date == d) = true then
          { r with available_slots := r.available_slots - 1 } else r).work_date
            = r.work_date := by
      intro r
      split <;> exact ⟨rfl, rfl⟩
    rcases hab with h | h
    · exact Or.inl (by rw [(hkeys a).1, (hkeys b).1]; exact h)
    · exact Or.inr (by rw [(hkeys a).2, (hkeys b).2]; exact h)

lemma zeroSlot_good {sch : List Row} {uid : String} {d : Nat}
    (hg : GoodSchedule sch) : GoodSchedule (zeroSlot sch uid d) := by
  obtain ⟨hb, hk⟩ := hg
  constructor
  · intro r' hr'
    obtain ⟨r, hr, rfl⟩ := List.mem_map.mp hr'
    by_cases hc : (r.user_id == uid && r.work_date == d) = true
    · rw [if_pos hc]
      constructor <;> simp
    · rw [if_neg hc]
      exact hb r hr
  · rw [keysDistinct] at hk ⊢
    unfold zeroSlot
    rw [List.pairwise_map]
    refine hk.imp ?_
    intro a b hab
    have hkeys : ∀ r : Row,
        (if (r.user_id == uid && r.work_date == d) = true then
          { r with available_slots := 0 } else r).user_id = r.user_id ∧
        (if (r.user_id == uid && r.work_date == d) = true then
          { r with available_slots := 0 } else r).work_date = r.work_date := by
      intro r
      split <;> exact ⟨rfl, rfl⟩
    rcases hab with h | h
    · exact Or.inl (by rw [(hkeys a).1, (hkeys b).1]; exact h)
    · exact Or.inr (by rw [(hkeys a).2, (hkeys b).2]; exact h)

lemma assign_good {st : DBState} {today : Nat} {oid city urg : String}
    {delay : Nat} {f1 f2 : Bool} (hg : GoodSchedule st.schedule) :
    GoodSchedule
      ((assign_order_to_worker st today oid city urg delay f1 f2).1).schedule := by
  unfold assign_order_to_worker
  dsimp only
  by_cases he : (cityEmployees st city).isEmpty = true
  · rw [if_pos he]; exact hg
  · rw [if_neg he]
    have hg1 : GoodSchedule (ensureAll st today (cityEmployees st city)).schedule :=
      ensureAll_good _ st today hg
    cases hsel : selectAssignment (ensureAll st today (cityEmployees st city)).schedule
        (ownersOf (cityEmployees st city)) (workersOf (cityEmployees st city))
        (isUrgentStr urg) today delay with
    | none => exact hg1
    | some p =>
      obtain ⟨u, d⟩ := p
      dsimp only
      obtain ⟨r, hr, p1, p2, p3, p4⟩ := selectAssignment_sound hsel
      have hg2 : GoodSchedule
          (if f1 then (ensureAll st today (cityEmployees st city))
           else { ensureAll st today (cityEmployees st city) with
                  schedule := decrementSlot
                    (ensureAll st today (cityEmployees st city)).schedule u d }).schedule := by
        by_cases hf1 : f1 = true
        · rw [if_pos hf1]; exact hg1
        · rw [if_neg hf1]
          exact decrementSlot_good hg1 ⟨r, hr, p1, p2, p3⟩
      by_cases hf2 : f2 = true
      · rw [if_pos hf2]; exact hg2
      · rw [if_neg hf2]; exact hg2

lemma applyOp_good {st : DBState} (op : EngineOp) (hg : GoodSchedule st.schedule) :
    GoodSchedule (applyOp st op).schedule := by
  cases op with
  | ensureOp t uid => exact ensure_good (by norm_num) hg
  | assignOp t oid city urg delay ff1 ff2 => exact assign_good hg
  | leaveOp uid d => exact zeroSlot_good hg

lemma runOps_good :
    ∀ (ops : List EngineOp) (st : DBState), GoodSchedule st.schedule →
      GoodSchedule (runOps st ops).schedule := by
  intro ops
  induction ops with
  | nil => intro st hg; exact hg
  | cons op rest ih =>
    intro st hg
    simp only [runOps, List.foldl_cons]
    have := ih (applyOp st op) (applyOp_good op hg)
    simpa [runOps] using this

/-! ### Concrete states used by witnesses and counterexamples -/

/-- One OWNER in city X, empty schedule, one unassigned order. -/
def stOneOwner : DBState :=
  ⟨[⟨"A", "OWNER", "X"⟩], [], [⟨"o1", "Ready to Assign", none, none⟩]⟩

/-- One OWNER in city X, empty schedule, one order already in progress with an
appointment on date 3. -/
def stInProgress : DBState :=
  ⟨[⟨"A", "OWNER", "X"⟩], [], [⟨"o1", "In progress", some "A", some 3⟩]⟩

/-- Two OWNERs in city X; A's date-0 slot is zeroed, B's schedule is empty. -/
def stTwoOwners : DBState :=
  ⟨[⟨"A", "OWNER", "X"⟩, ⟨"B", "OWNER", "X"⟩], [⟨"A", 0, 0⟩],
   [⟨"o1", "Ready to Assign", none, none⟩]⟩

/-- C2: for every state reachable from an empty schedule by any sequence of
the engine's operations (EnsureSchedule with 30 days of 6 slots, Assign with
any failure pattern of its two writes, ApplyApprovedLeave) executed
sequentially, every schedule row satisfies 0 ≤ available_slots ≤ 6. -/
theorem C2_capacity_bound (emps : List Employee) (ords : List OrderRow)
    (ops : List EngineOp) :
    ∀ r ∈ (runOps ⟨emps, [], ords⟩ ops).schedule,
      0 ≤ r.available_slots ∧ r.available_slots ≤ 6 := by
  have hg : GoodSchedule (DBState.mk emps [] ords).schedule :=
    ⟨fun r hr => absurd hr (List.not_mem_nil r), List.Pairwise.nil⟩
  exact (runOps_good ops _ hg).1

/-- Witness for C2: a concrete reachable row stays within the bound. -/
theorem C2_capacity_bound_witness :
    0 ≤ (Row.mk "A" 0 6).available_slots ∧ (Row.mk "A" 0 6).available_slots ≤ 6 :=
  C2_capacity_bound [⟨"A", "OWNER", "X"⟩] [] [EngineOp.ensureOp 0 "A"]
    (Row.mk "A" 0 6) (by decide)

/-- C1: the slot decrement and the order update are NOT applied as an
all-or-nothing unit.  With one OWNER in city X and a Ready-to-Assign order,
if the order-update statement fails after the slot decrement committed, the
final state has the chosen slot decremented (6 → 5) while the order is
completely unchanged (still `Ready to Assign`, unassigned) — exactly one of
the two writes took effect, and the call still returns the date. -/
theorem C1_partial_write_state :
    ((assign_order_to_worker stOneOwner 0 "o1" "X" "Pilne" 1 false true).1.schedule.contains
        ⟨"A", 0, 5⟩) = true
    ∧ (assign_order_to_worker stOneOwner 0 "o1" "X" "Pilne" 1 false true).1.orders
        = [⟨"o1", "Ready to Assign", none, none⟩]
    ∧ (assign_order_to_worker stOneOwner 0 "o1" "X" "Pilne" 1 false true).2
        = some 0 := by
  decide

/-- C3: `assign_order_to_worker` never reads the order's status, so invoking
it again for an order that is already `In progress` is not a no-op: on this
concrete state a second invocation decrements a schedule slot (6 → 5) and
overwrites the order's appointment_date (3 → 0). -/
theorem C3_reassign_not_noop :
    ((assign_order_to_worker stInProgress 0 "o1" "X" "Pilne" 1 false false).1.schedule.contains
        ⟨"A", 0, 5⟩) = true
    ∧ (assign_order_to_worker stInProgress 0 "o1" "X" "Pilne" 1 false false).1.orders
        = [⟨"o1", "In progress", some "A", some 0⟩]
    ∧ (assign_order_to_worker stInProgress 0 "o1" "X" "Pilne" 1 false false).2
        = some 0 := by
  decide

/-- C9: the calls to `assign_order_to_worker` in `listen_for_events` supply
no arguments while the function has three parameters without defaults, so
the call cannot bind and raises `TypeError` instead of running the selector. -/
theorem C9_listener_call_malformed :
    pythonCallBinds listenerCallArgCount assignRequiredArgCount = false := by
  decide

/-- Counterexample to C6 as stated: a non-urgent order with floor 60, two
OWNERs A and B in city X, where A (listed first) has its date-0 slot zeroed.
No slot exists at or after the floor, so the fallback runs; the earliest
available slot from today is B's date 0, but the engine assigns date 1 (A's
earliest), because the fallback takes the FIRST owner in list order with any
slot, not the owner with the earliest slot. -/
theorem C6_counterexample :
    isUrgentStr "niepilne" = false
    ∧ (assign_order_to_worker stTwoOwners 0 "o1" "X" "niepilne" 60 false false).2
        = some 1
    ∧ nearestSlot (ensureAll stTwoOwners 0 (cityEmployees stTwoOwners "X")).schedule
        "B" 0 = some 0 := by
  decide

/-- C10: every error inside `execute_query` is swallowed, so whatever the two
failure flags, once a candidate was selected `assign_order_to_worker` still
returns its work_date; if the decrement failed the schedule is untouched and
if the order update failed the orders are untouched — success is reported to
the caller regardless. -/
theorem C10_swallowed_errors (st : DBState) (today : Nat)
    (oid city urg : String) (delay : Nat) (f1 f2 : Bool) (u : String) (d : Nat)
    (hne : (cityEmployees st city).isEmpty = false)
    (hsel : selectAssignment (ensureAll st today (cityEmployees st city)).schedule
        (ownersOf (cityEmployees st city)) (workersOf (cityEmployees st city))
        (isUrgentStr urg) today delay = some (u, d)) :
    (assign_order_to_worker st today oid city urg delay f1 f2).2 = some d
    ∧ (f1 = true →
        (assign_order_to_worker st today oid city urg delay f1 f2).1.schedule
          = (ensureAll st today (cityEmployees st city)).schedule)
    ∧ (f2 = true →
        (assign_order_to_worker st today oid city urg delay f1 f2).1.orders
          = st.orders) := by
  unfold assign_order_to_worker
  dsimp only
  rw [hne]
  simp only [Bool.false_eq_true, if_false]
  rw [hsel]
  dsimp only
  refine ⟨rfl, ?_, ?_⟩
  · intro hf1
    rw [hf1]
    by_cases hf2 : f2 = true
    · rw [if_pos hf2]
      simp
    · rw [if_neg hf2]
      simp
  · intro hf2
    rw [hf2]
    by_cases hf1 : f1 = true
    · rw [if_pos hf1]
      simpa using ensureAll_orders (cityEmployees st city) st today
    · rw [if_neg hf1]
      simpa using ensureAll_orders (cityEmployees st city) st today

/-- Witness for C10: on the concrete one-owner state with both writes
failing, the call still returns date 0 and leaves schedule and orders as
they were after horizon maintenance. -/
theorem C10_swallowed_errors_witness :
    (assign_order_to_worker stOneOwner 0 "o1" "X" "Pilne" 1 true true).2 = some 0
    ∧ (true = true →
        (assign_order_to_worker stOneOwner 0 "o1" "X" "Pilne" 1 true true).1.schedule
          = (ensureAll stOneOwner 0 (cityEmployees stOneOwner "X")).schedule)
    ∧ (true = true →
        (assign_order_to_worker stOneOwner 0 "o1" "X" "Pilne" 1 true true).1.orders
          = stOneOwner.orders) :=
  C10_swallowed_errors stOneOwner 0 "o1" "X" "Pilne" 1 true true "A" 0
    (by decide) (by decide)

lemma ownersOf_nonempty {emps : List (String × String)} {o : String}
    (h : o ∈ ownersOf emps) : emps.isEmpty = false := by
  cases emps with
  | nil => simp [ownersOf] at h
  | cons e rest => rfl

/-- C4: for an urgent order in a city where at least one OWNER has an
available slot on some date ≥ today (after horizon maintenance), the engine
selects from the OWNER tier — never a WORKER — and the assigned date is the
smallest earliest-available date among the city's OWNERs; the call returns
that date. -/
theorem C4_urgent_owner_priority (st : DBState) (today : Nat)
    (oid city urg : String) (delay : Nat) (f1 f2 : Bool)
    (o : String) (d0 : Nat)
    (hurg : isUrgentStr urg = true)
    (ho : o ∈ ownersOf (cityEmployees st city))
    (hslot : nearestSlot (ensureAll st today (cityEmployees st city)).schedule
        o today = some d0) :
    ∃ u d,
      selectAssignment (ensureAll st today (cityEmployees st city)).schedule
          (ownersOf (cityEmployees st city)) (workersOf (cityEmployees st city))
          (isUrgentStr urg) today delay = some (u, d)
      ∧ u ∈ ownersOf (cityEmployees st city)
      ∧ nearestSlot (ensureAll st today (cityEmployees st city)).schedule u today
          = some d
      ∧ (∀ v ∈ ownersOf (cityEmployees st city), ∀ e,
          nearestSlot (ensureAll st today (cityEmployees st city)).schedule v today
            = some e → d ≤ e)
      ∧ (assign_order_to_worker st today oid city urg delay f1 f2).2 = some d := by
  have hbs : (bestOf (ensureAll st today (cityEmployees st city)).schedule
      (ownersOf (cityEmployees st city)) today).isSome = true :=
    bestOf_isSome ho hslot
  obtain ⟨⟨u, d⟩, hb⟩ := Option.isSome_iff_exists.mp hbs
  obtain ⟨hmem, hnear⟩ := bestOf_mem hb
  have hsel : selectAssignment (ensureAll st today (cityEmployees st city)).schedule
      (ownersOf (cityEmployees st city)) (workersOf (cityEmployees st city))
      (isUrgentStr urg) today delay = some (u, d) := by
    unfold selectAssignment
    rw [hurg]
    rw [hb]
    rfl
  refine ⟨u, d, hsel, hmem, hnear, bestOf_le hb, ?_⟩
  unfold assign_order_to_worker
  dsimp only
  rw [ownersOf_nonempty ho]
  simp only [Bool.false_eq_true, if_false]
  rw [hsel]

/-- Witness for C4: one OWNER in city X, urgent order, slot available today. -/
theorem C4_urgent_owner_priority_witness :
    ∃ u d,
      selectAssignment (ensureAll stOneOwner 0 (cityEmployees stOneOwner "X")).schedule
          (ownersOf (cityEmployees stOneOwner "X")) (workersOf (cityEmployees stOneOwner "X"))
          (isUrgentStr "Pilne") 0 1 = some (u, d)
      ∧ u ∈ ownersOf (cityEmployees stOneOwner "X")
      ∧ nearestSlot (ensureAll stOneOwner 0 (cityEmployees stOneOwner "X")).schedule u 0
          = some d
      ∧ (∀ v ∈ ownersOf (cityEmployees stOneOwner "X"), ∀ e,
          nearestSlot (ensureAll stOneOwner 0 (cityEmployees stOneOwner "X")).schedule v 0
            = some e → d ≤ e)
      ∧ (assign_order_to_worker stOneOwner 0 "o1" "X" "Pilne" 1 false false).2 = some d :=
  C4_urgent_owner_priority stOneOwner 0 "o1" "X" "Pilne" 1 false false "A" 0
    (by decide) (by decide) (by decide)

/-- C5: for a non-urgent order the engine computes the floor
`today + low_priority_delay` and, when some OWNER has an available slot at
or after the floor, assigns the earliest such OWNER date — a date that is
never before the floor — and the call returns it. -/
theorem C5_nonurgent_buffer (st : DBState) (today : Nat)
    (oid city urg : String) (delay : Nat) (f1 f2 : Bool)
    (o : String) (d0 : Nat)
    (hurg : isUrgentStr urg = false)
    (ho : o ∈ ownersOf (cityEmployees st city))
    (hslot : nearestSlot (ensureAll st today (cityEmployees st city)).schedule
        o (today + delay) = some d0) :
    ∃ u d,
      selectAssignment (ensureAll st today (cityEmployees st city)).schedule
          (ownersOf (cityEmployees st city)) (workersOf (cityEmployees st city))
          (isUrgentStr urg) today delay = some (u, d)
      ∧ u ∈ ownersOf (cityEmployees st city)
      ∧ nearestSlot (ensureAll st today (cityEmployees st city)).schedule u
          (today + delay) = some d
      ∧ today + delay ≤ d
      ∧ (∀ v ∈ ownersOf (cityEmployees st city), ∀ e,
          nearestSlot (ensureAll st today (cityEmployees st city)).schedule v
            (today + delay) = some e → d ≤ e)
      ∧ (assign_order_to_worker st today oid city urg delay f1 f2).2 = some d := by
  have hbs : (bestOf (ensureAll st today (cityEmployees st city)).schedule
      (ownersOf (cityEmployees st city)) (today + delay)).isSome = true :=
    bestOf_isSome ho hslot
  obtain ⟨⟨u, d⟩, hb⟩ := Option.isSome_iff_exists.mp hbs
  obtain ⟨hmem, hnear⟩ := bestOf_mem hb
  obtain ⟨r, hr, q1, q2, q3, q4⟩ := nearestSlot_mem hnear
  have hsel : selectAssignment (ensureAll st today (cityEmployees st city)).schedule
      (ownersOf (cityEmployees st city)) (workersOf (cityEmployees st city))
      (isUrgentStr urg) today delay = some (u, d) := by
    unfold selectAssignment
    rw [hurg]
    dsimp only
    rw [hb]
    rfl
  refine ⟨u, d, hsel, hmem, hnear, q3, bestOf_le hb, ?_⟩
  unfold assign_order_to_worker
  dsimp only
  rw [ownersOf_nonempty ho]
  simp only [Bool.false_eq_true, if_false]
  rw [hsel]

/-- Witness for C5: one OWNER, non-urgent order, delay 1; the owner has a
slot today but the engine assigns date 1, the earliest at or after the
floor. -/
theorem C5_nonurgent_buffer_witness :
    ∃ u d,
      selectAssignment (ensureAll stOneOwner 0 (cityEmployees stOneOwner "X")).schedule
          (ownersOf (cityEmployees stOneOwner "X")) (workersOf (cityEmployees stOneOwner "X"))
          (isUrgentStr "niepilne") 0 1 = some (u, d)
      ∧ u ∈ ownersOf (cityEmployees stOneOwner "X")
      ∧ nearestSlot (ensureAll stOneOwner 0 (cityEmployees stOneOwner "X")).schedule u
          (0 + 1) = some d
      ∧ 0 + 1 ≤ d
      ∧ (∀ v ∈ ownersOf (cityEmployees stOneOwner "X"), ∀ e,
          nearestSlot (ensureAll stOneOwner 0 (cityEmployees stOneOwner "X")).schedule v
            (0 + 1) = some e → d ≤ e)
      ∧ (assign_order_to_worker stOneOwner 0 "o1" "X" "niepilne" 1 false false).2 = some d :=
  C5_nonurgent_buffer stOneOwner 0 "o1" "X" "niepilne" 1 false false "A" 1
    (by decide) (by decide) (by decide)

lemma assign_returns_selection (st : DBState) (today : Nat)
    (oid city urg : String) (delay : Nat) (f1 f2 : Bool)
    (hne : (cityEmployees st city).isEmpty = false) :
    (assign_order_to_worker st today oid city urg delay f1 f2).2
      = Option.map Prod.snd
          (selectAssignment (ensureAll st today (cityEmployees st city)).schedule
            (ownersOf (cityEmployees st city)) (workersOf (cityEmployees st city))
            (isUrgentStr urg) today delay) := by
  unfold assign_order_to_worker
  dsimp only
  rw [hne]
  simp only [Bool.false_eq_true, if_false]
  cases hsel : selectAssignment (ensureAll st today (cityEmployees st city)).schedule
      (ownersOf (cityEmployees st city)) (workersOf (cityEmployees st city))
      (isUrgentStr urg) today delay with
  | none => rfl
  | some p =>
    obtain ⟨u, d⟩ := p
    rfl

/-- C6 (amended): for a non-urgent order where neither tier has an available
slot at or after the floor `today + low_priority_delay`, the engine relaxes
the floor to today, but its relaxed search is first-match, not
earliest-date: it assigns the FIRST owner in the city listing order that has
any available slot from today, at that owner's own earliest available date
(and only when no owner has any slot, the first worker likewise); it returns
unassignable exactly when no owner and no worker has any available slot from
today onward. -/
theorem C6_relaxed_floor_first_match (st : DBState) (today : Nat)
    (oid city urg : String) (delay : Nat) (f1 f2 : Bool)
    (hurg : isUrgentStr urg = false)
    (hne : (cityEmployees st city).isEmpty = false)
    (hO : bestOf (ensureAll st today (cityEmployees st city)).schedule
        (ownersOf (cityEmployees st city)) (today + delay) = none)
    (hW : bestOf (ensureAll st today (cityEmployees st city)).schedule
        (workersOf (cityEmployees st city)) (today + delay) = none) :
    (selectAssignment (ensureAll st today (cityEmployees st city)).schedule
        (ownersOf (cityEmployees st city)) (workersOf (cityEmployees st city))
        (isUrgentStr urg) today delay
      = match firstAny (ensureAll st today (cityEmployees st city)).schedule
            (ownersOf (cityEmployees st city)) today with
        | some p => some p
        | none => firstAny (ensureAll st today (cityEmployees st city)).schedule
            (workersOf (cityEmployees st city)) today)
    ∧ (∀ u d, firstAny (ensureAll st today (cityEmployees st city)).schedule
          (ownersOf (cityEmployees st city)) today = some (u, d) →
        ∃ pre post, ownersOf (cityEmployees st city) = pre ++ u :: post
          ∧ (∀ v ∈ pre, nearestSlot
              (ensureAll st today (cityEmployees st city)).schedule v today = none)
          ∧ nearestSlot (ensureAll st today (cityEmployees st city)).schedule u today
              = some d)
    ∧ ((assign_order_to_worker st today oid city urg delay f1 f2).2 = none ↔
        ∀ v ∈ ownersOf (cityEmployees st city) ++ workersOf (cityEmployees st city),
          nearestSlot (ensureAll st today (cityEmployees st city)).schedule v today
            = none)
    ∧ (assign_order_to_worker st today oid city urg delay f1 f2).2
        = Option.map Prod.snd
            (selectAssignment (ensureAll st today (cityEmployees st city)).schedule
              (ownersOf (cityEmployees st city)) (workersOf (cityEmployees st city))
              (isUrgentStr urg) today delay) := by
  have hsel : selectAssignment (ensureAll st today (cityEmployees st city)).schedule
      (ownersOf (cityEmployees st city)) (workersOf (cityEmployees st city))
      (isUrgentStr urg) today delay
      = match firstAny (ensureAll st today (cityEmployees st city)).schedule
            (ownersOf (cityEmployees st city)) today with
        | some p => some p
        | none => firstAny (ensureAll st today (cityEmployees st city)).schedule
            (workersOf (cityEmployees st city)) today := by
    unfold selectAssignment
    rw [hurg]
    dsimp only
    rw [hO]
    dsimp only
    rw [hW]
    rfl
  have hret := assign_returns_selection st today oid city urg delay f1 f2 hne
  refine ⟨hsel, ?_, ?_, hret⟩
  · intro u d h
    exact firstAny_mem h
  · rw [hret, hsel]
    cases hfo : firstAny (ensureAll st today (cityEmployees st city)).schedule
        (ownersOf (cityEmployees st city)) today with
    | some p =>
      obtain ⟨u, d⟩ := p
      obtain ⟨pre, post, e1, e2, e3⟩ := firstAny_mem hfo
      constructor
      · intro h
        exact absurd h (by simp)
      · intro h
        exfalso
        have hu : u ∈ ownersOf (cityEmployees st city) ++ workersOf (cityEmployees st city) := by
          rw [e1]
          exact List.mem_append_left _ (by simp)
        rw [h u hu] at e3
        exact Option.noConfusion e3
    | none =>
      cases hfw : firstAny (ensureAll st today (cityEmployees st city)).schedule
          (workersOf (cityEmployees st city)) today with
      | some p =>
        obtain ⟨u, d⟩ := p
        obtain ⟨pre, post, e1, e2, e3⟩ := firstAny_mem hfw
        constructor
        · intro h
          exact absurd h (by simp)
        · intro h
          exfalso
          have hu : u ∈ ownersOf (cityEmployees st city) ++ workersOf (cityEmployees st city) := by
            rw [e1]
            exact List.mem_append_right _ (by simp)
          rw [h u hu] at e3
          exact Option.noConfusion e3
      | none =>
        refine iff_of_true rfl ?_
        intro v hv
        rcases List.mem_append.mp hv with h1 | h1
        · exact firstAny_none_iff.mp hfo v h1
        · exact firstAny_none_iff.mp hfw v h1

/-- Witness for the amended C6, at the counterexample state: floor 60, no
slot at or after it, A is the first owner with any slot. -/
theorem C6_relaxed_floor_first_match_witness :
    (selectAssignment (ensureAll stTwoOwners 0 (cityEmployees stTwoOwners "X")).schedule
        (ownersOf (cityEmployees stTwoOwners "X")) (workersOf (cityEmployees stTwoOwners "X"))
        (isUrgentStr "niepilne") 0 60
      = match firstAny (ensureAll stTwoOwners 0 (cityEmployees stTwoOwners "X")).schedule
            (ownersOf (cityEmployees stTwoOwners "X")) 0 with
        | some p => some p
        | none => firstAny (ensureAll stTwoOwners 0 (cityEmployees stTwoOwners "X")).schedule
            (workersOf (cityEmployees stTwoOwners "X")) 0)
    ∧ (∀ u d, firstAny (ensureAll stTwoOwners 0 (cityEmployees stTwoOwners "X")).schedule
          (ownersOf (cityEmployees stTwoOwners "X")) 0 = some (u, d) →
        ∃ pre post, ownersOf (cityEmployees stTwoOwners "X") = pre ++ u :: post
          ∧ (∀ v ∈ pre, nearestSlot
              (ensureAll stTwoOwners 0 (cityEmployees stTwoOwners "X")).schedule v 0 = none)
          ∧ nearestSlot (ensureAll stTwoOwners 0 (cityEmployees stTwoOwners "X")).schedule u 0
              = some d)
    ∧ ((assign_order_to_worker stTwoOwners 0 "o1" "X" "niepilne" 60 false false).2 = none ↔
        ∀ v ∈ ownersOf (cityEmployees stTwoOwners "X") ++ workersOf (cityEmployees stTwoOwners "X"),
          nearestSlot (ensureAll stTwoOwners 0 (cityEmployees stTwoOwners "X")).schedule v 0
            = none)
    ∧ (assign_order_to_worker stTwoOwners 0 "o1" "X" "niepilne" 60 false false).2
        = Option.map Prod.snd
            (selectAssignment (ensureAll stTwoOwners 0 (cityEmployees stTwoOwners "X")).schedule
              (ownersOf (cityEmployees stTwoOwners "X")) (workersOf (cityEmployees stTwoOwners "X"))
              (isUrgentStr "niepilne") 0 60) :=
  C6_relaxed_floor_first_match stTwoOwners 0 "o1" "X" "niepilne" 60 false false
    (by decide) (by decide) (by decide) (by decide)

/-! ### The horizon invariant (C7) -/

lemma take_mem_of_lt {L : List Nat} (hpw : L.Pairwise (· < ·)) :
    ∀ {n d e : Nat}, d ∈ L.take n → e ∈ L → e < d → e ∈ L.take n := by
  induction L with
  | nil => intro n d e hd _ _; simp at hd
  | cons a L ih =>
    intro n d e hd he hlt
    cases n with
    | zero => simp at hd
    | succ m =>
      rw [List.take_succ_cons] at hd ⊢
      obtain ⟨ha, hpw'⟩ := List.pairwise_cons.mp hpw
      rcases List.mem_cons.mp hd with rfl | hd'
      · rcases List.mem_cons.mp he with rfl | he'
        · omega
        · exact absurd (ha e he') (by omega)
      · rcases List.mem_cons.mp he with rfl | he'
        · exact List.mem_cons_self _ _
        · exact List.mem_cons_of_mem _ (ih hpw' hd' he' hlt)

/-- The first 217 = 7·31 calendar days from `today`, filtered to weekdays:
at least the first 30 weekday dates from `today`. -/
def weekdayStream (today : Nat) : List Nat :=
  ((List.range 217).map (fun j => today + j)).filter (fun dd => isWeekday dd)

lemma weekdayStream_length (today : Nat) : (weekdayStream today).length = 155 := by
  unfold weekdayStream
  rw [← List.countP_eq_length_filter, List.countP_map]
  show (List.range 217).countP (fun j => isWeekday (today + j)) = 155
  have h217 : (217 : Nat) = 7 * 31 := by norm_num
  rw [h217, countP_weekday_range_mul]

lemma weekdayStream_pairwise (today : Nat) :
    (weekdayStream today).Pairwise (· < ·) := by
  unfold weekdayStream
  refine List.Pairwise.sublist (List.filter_sublist _) ?_
  rw [List.pairwise_map]
  refine (List.pairwise_lt_range 217).imp ?_
  intro a b h
  omega

lemma mem_weekdayStream {today e : Nat} :
    e ∈ weekdayStream today ↔ isWeekday e = true ∧ today ≤ e ∧ e < today + 217 := by
  unfold weekdayStream
  simp only [List.mem_filter, List.mem_map, List.mem_range]
  constructor
  · rintro ⟨⟨j, hj, rfl⟩, hw⟩
    exact ⟨hw, by omega, by omega⟩
  · rintro ⟨hw, h1, h2⟩
    exact ⟨⟨e - today, by omega, by omega⟩, hw⟩

/-- C7: running `ensure_worker_has_schedule` with 30 days and 6 slots for a
worker with no schedule rows creates exactly 30 rows, all for that worker at
full capacity 6, on strictly increasing weekday dates from today, with no
weekday gap below any created date (i.e. precisely the first 30 weekdays
from today), and nothing else. -/
theorem C7_horizon_fresh_schedule (today : Nat) (uid : String)
    (emps : List Employee) (ords : List OrderRow) :
    (ensure_worker_has_schedule ⟨emps, [], ords⟩ today uid 30 6).schedule.length = 30
    ∧ (∀ r ∈ (ensure_worker_has_schedule ⟨emps, [], ords⟩ today uid 30 6).schedule,
        r.user_id = uid ∧ r.available_slots = 6 ∧ isWeekday r.work_date = true ∧
          today ≤ r.work_date)
    ∧ ((ensure_worker_has_schedule ⟨emps, [], ords⟩ today uid 30 6).schedule.map
        (fun r => r.work_date)).Pairwise (· < ·)
    ∧ (∀ r ∈ (ensure_worker_has_schedule ⟨emps, [], ords⟩ today uid 30 6).schedule,
        ∀ e, isWeekday e = true → today ≤ e → e < r.work_date →
          e ∈ (ensure_worker_has_schedule ⟨emps, [], ords⟩ today uid 30 6).schedule.map
            (fun r => r.work_date)) := by
  have hco : collectInserts today [] 217 0 30 = (weekdayStream today).take 30 := by
    rw [collectInserts_empty_eq]
    rfl
  have hkey : (ensure_worker_has_schedule ⟨emps, [], ords⟩ today uid 30 6).schedule
      = ((weekdayStream today).take 30).map
          (fun dd => (⟨uid, dd, ((6 : Nat) : Int)⟩ : Row)) := by
    rw [← hco]
    rfl
  have hdates : ((ensure_worker_has_schedule ⟨emps, [], ords⟩ today uid 30 6).schedule.map
      (fun r => r.work_date)) = (weekdayStream today).take 30 := by
    rw [hkey, List.map_map]
    exact List.map_id _
  refine ⟨?_, ?_, ?_, ?_⟩
  · rw [hkey, List.length_map, List.length_take, weekdayStream_length]
    decide
  · intro r hr
    rw [hkey] at hr
    obtain ⟨dd, hdd, rfl⟩ := List.mem_map.mp hr
    have hw := mem_weekdayStream.mp (List.take_subset _ _ hdd)
    refine ⟨rfl, by norm_num, hw.1, hw.2.1⟩
  · rw [hdates]
    exact List.Pairwise.sublist (List.take_sublist _ _) (weekdayStream_pairwise today)
  · intro r hr e hwe hte hlt
    rw [hdates]
    rw [hkey] at hr
    obtain ⟨dd, hdd, rfl⟩ := List.mem_map.mp hr
    have hltd : e < dd := hlt
    have hddw := mem_weekdayStream.mp (List.take_subset _ _ hdd)
    have hew : e ∈ weekdayStream today := mem_weekdayStream.mpr ⟨hwe, hte, by omega⟩
    exact take_mem_of_lt (weekdayStream_pairwise today) hdd hew hltd

/-- Witness for C7: the concrete horizon at today = 0 has exactly 30 rows. -/
theorem C7_horizon_fresh_schedule_witness :
    (ensure_worker_has_schedule ⟨[], [], []⟩ 0 "w" 30 6).schedule.length = 30 :=
  (C7_horizon_fresh_schedule 0 "w" [] []).1

/-! ### Leave blackout (C8) -/

lemma zeroSlot_idem (sch : List Row) (w : String) (d : Nat) :
    zeroSlot (zeroSlot sch w d) w d = zeroSlot sch w d := by
  unfold zeroSlot
  rw [List.map_map]
  refine List.map_eq_map_iff.mpr ?_
  intro r hr
  simp only [Function.comp_apply]
  by_cases hc : (r.user_id == w && r.work_date == d) = true
  · rw [if_pos hc]
    rw [if_pos hc]
  · rw [if_neg hc]
    rw [if_neg hc]

/-- C8: approving leave zeroes the slot regardless of its prior value; the
schedule update is idempotent; and a later Assign never selects a (worker,
date) pair whose schedule row is zeroed, because every selection query
filters on `available_slots > 0` (and horizon maintenance skips dates that
already have a row). -/
theorem C8_leave_blackout :
    (∀ (st : DBState) (w : String) (d : Nat),
      ∀ r ∈ (applyApprovedLeave st w d).schedule,
        r.user_id = w → r.work_date = d → r.available_slots = 0)
    ∧ (∀ (st : DBState) (w : String) (d : Nat),
        applyApprovedLeave (applyApprovedLeave st w d) w d
          = applyApprovedLeave st w d)
    ∧ (∀ (st : DBState) (today : Nat) (w city urg : String) (d delay : Nat)
        (u : String) (dd : Nat),
        (∀ r ∈ st.schedule, r.user_id = w → r.work_date = d →
          r.available_slots = 0) →
        (today ≤ d → ∃ r ∈ st.schedule, r.user_id = w ∧ r.work_date = d) →
        selectAssignment (ensureAll st today (cityEmployees st city)).schedule
          (ownersOf (cityEmployees st city)) (workersOf (cityEmployees st city))
          (isUrgentStr urg) today delay = some (u, dd) →
        ¬(u = w ∧ dd = d)) := by
  refine ⟨?_, ?_, ?_⟩
  · intro st w d r hr hru hrd
    obtain ⟨r0, hr0, rfl⟩ := List.mem_map.mp hr
    by_cases hc : (r0.user_id == w && r0.work_date == d) = true
    · rw [if_pos hc]
    · rw [if_neg hc] at hru hrd ⊢
      exact absurd (by simp [hru, hrd] : (r0.user_id == w && r0.work_date == d) = true) hc
  · intro st w d
    unfold applyApprovedLeave
    simp only [DBState.mk.injEq]
    exact ⟨trivial, zeroSlot_idem st.schedule w d, trivial⟩
  · intro st today w city urg d delay u dd hz hex hsel hcontra
    obtain ⟨rfl, rfl⟩ := hcontra
    obtain ⟨r, hr, q1, q2, q3, q4⟩ := selectAssignment_sound hsel
    have hzero := ensureAll_zero_preserved u dd (cityEmployees st city) st today
      hz hex r hr q1 q2
    omega

/-- The schedule state right after approving worker A's leave for date 0. -/
def stLeaveApplied : DBState :=
  applyApprovedLeave ⟨[⟨"A", "OWNER", "X"⟩], [⟨"A", 0, 6⟩], []⟩ "A" 0

/-- Witness for C8: on the concrete post-leave state the zeroed pair
("A", 0) is not selected — the engine picks date 1 instead. -/
theorem C8_leave_blackout_witness :
    selectAssignment (ensureAll stLeaveApplied 0 (cityEmployees stLeaveApplied "X")).schedule
        (ownersOf (cityEmployees stLeaveApplied "X"))
        (workersOf (cityEmployees stLeaveApplied "X"))
        (isUrgentStr "Pilne") 0 1 = some ("A", 1)
    ∧ ¬(("A" : String) = "A" ∧ (1 : Nat) = 0) :=
  ⟨by decide,
   C8_leave_blackout.2.2 stLeaveApplied 0 "A" "X" "Pilne" 0 1 "A" 1
     (by decide) (by decide) (by decide)⟩
